import Mathlib

/-!
Verification of `iq_fit_solver.py`, a brute-force enumerator for the IQ Fit
puzzle.  Boards and pieces are 2D numpy arrays of small non-negative
integers; we embed them as `Grid`: a pair of dimensions together with a
total cell function (cells outside the dimensions are irrelevant junk, and
all counting is performed over the in-range coordinates, as numpy does over
the actual array).

The embedded operations mirror the source functions `fits`, `solve`,
`get_region_size` and `fails`.  The in-place mutation that `get_region_size`
performs on its argument is modelled by explicit state passing: the function
returns the updated board together with the region size.  Its unbounded
recursion is modelled with an explicit fuel parameter; `get_region_size`
instantiates the fuel with `rows * cols + 1`, and a theorem shows any fuel
larger than the number of empty cells gives the same result, which is the
termination argument for the Python recursion.
-/

/-- A 2D grid of natural numbers: the embedding of a numpy 2D array.
`cell i j` is the entry at row `i`, column `j`; only indices with
`i < rows` and `j < cols` are meaningful. -/
@[ext]
structure Grid where
  rows : ℕ
  cols : ℕ
  cell : ℕ → ℕ → ℕ

/-- Build a grid from a list of row lists, mirroring the numpy array
literals of the source file. -/
def ofLists (l : List (List ℕ)) : Grid :=
  ⟨l.length, (l.headD []).length, fun i j => (l.getD i []).getD j 0⟩

/-- The finite set of in-range coordinates of a grid. -/
def gridF (g : Grid) : Finset (ℕ × ℕ) :=
  Finset.range g.rows ×ˢ Finset.range g.cols

/-- The finite set of empty (zero) in-range cells of a grid. -/
def zerosF (g : Grid) : Finset (ℕ × ℕ) :=
  (gridF g).filter (fun q => g.cell q.1 q.2 = 0)

/-- Source `np.count_nonzero`: the number of nonzero in-range cells. -/
def countNonzero (g : Grid) : ℕ :=
  ((gridF g).filter (fun q => g.cell q.1 q.2 ≠ 0)).card

/-- Source `np.bitwise_or` of two same-shape arrays (dimensions taken from the
first argument; the caller guarantees equal shapes). -/
def orG (b p : Grid) : Grid :=
  ⟨b.rows, b.cols, fun i j => b.cell i j ||| p.cell i j⟩

/-- Source `fits(board, piece)`: the piece fits the board region when the
nonzero count of the bitwise or equals the sum of the two nonzero counts. -/
def fits (board piece : Grid) : Bool :=
  countNonzero (orG board piece) == countNonzero board + countNonzero piece

/-- The numpy slice `board[row:row+pr, col:col+pc]`. -/
def sliceG (b : Grid) (row col pr pc : ℕ) : Grid :=
  ⟨pr, pc, fun i j => b.cell (row + i) (col + j)⟩

/-- Source `new_board[row:row+prows, col:col+pcols] |= piece`: or the piece
into the region of the board anchored at `(row, col)`. -/
def placeRC (b : Grid) (row col : ℕ) (p : Grid) : Grid :=
  ⟨b.rows, b.cols, fun i j =>
    if row ≤ i ∧ i < row + p.rows ∧ col ≤ j ∧ j < col + p.cols then
      b.cell i j ||| p.cell (i - row) (j - col)
    else b.cell i j⟩

/-- Source `np.rot90`: rotate a grid by 90 degrees counterclockwise. -/
def rot90 (g : Grid) : Grid :=
  ⟨g.cols, g.rows, fun i j => g.cell j (g.cols - 1 - i)⟩

/-- The example board from the `fits` docstring. -/
def exampleBoard : Grid := ofLists [[0, 2, 0], [0, 0, 0]]

/-- The example piece from the `fits` docstring. -/
def examplePiece : Grid := ofLists [[1, 0, 1], [1, 1, 1]]

/-- A 2 by 3 board with one occupied cell, for placement witnesses. -/
def exampleBoard2 : Grid := ofLists [[0, 2, 0], [0, 0, 0]]

/-!
The flood fill `get_region_size` and the pruning test `fails`.  The Python
function mutates the board it is given (writing the sentinel value 3 into
visited cells); the embedding threads the board explicitly, returning the
updated board alongside the region size.  The recursion is driven by a fuel
parameter; `get_region_size` uses `rows * cols + 1`, which always exceeds
the number of empty cells.
-/

/-- Fueled embedding of the source `get_region_size(board, row, col)`:
if the cell is empty, mark it with the sentinel 3, count it, and recurse
into the four in-bounds neighbours (up, down, left, right), threading the
mutated board through the calls in source order. -/
def grsF : ℕ → Grid → ℕ → ℕ → Grid × ℕ
  | 0, b, _, _ => (b, 0)
  | fuel + 1, b, row, col =>
    if b.cell row col = 0 then
      let b0 : Grid := ⟨b.rows, b.cols, fun i j => if i = row ∧ j = col then 3 else b.cell i j⟩
      let s1 := if 1 ≤ row then grsF fuel b0 (row - 1) col else (b0, 0)
      let s2 := if row + 1 < b.rows then grsF fuel s1.1 (row + 1) col else (s1.1, 0)
      let s3 := if 1 ≤ col then grsF fuel s2.1 row (col - 1) else (s2.1, 0)
      let s4 := if col + 1 < b.cols then grsF fuel s3.1 row (col + 1) else (s3.1, 0)
      (s4.1, 1 + s1.2 + s2.2 + s3.2 + s4.2)
    else (b, 0)

/-- Source `get_region_size`: the fueled flood fill with enough fuel for
any board. -/
def get_region_size (b : Grid) (row col : ℕ) : Grid × ℕ :=
  grsF (b.rows * b.cols + 1) b row col

/-- The scan order of the source `fails` loop: all cells in row-major
order. -/
def allCells (g : Grid) : List (ℕ × ℕ) :=
  (List.range g.rows).flatMap (fun r => (List.range g.cols).map (fun c => (r, c)))

/-- The loop body of the source `fails`: scan cells in order; on each still
empty cell flood fill its region, and return `true` as soon as a region of
size less than 4 is found.  The final working board is returned alongside
the result (in the source this board is the local `new_board` copy). -/
def failsLoop : Grid → List (ℕ × ℕ) → Bool × Grid
  | b, [] => (false, b)
  | b, p :: rest =>
    if b.cell p.1 p.2 = 0 then
      let s := get_region_size b p.1 p.2
      if s.2 < 4 then (true, s.1) else failsLoop s.1 rest
    else failsLoop b rest

/-- Source `fails(board)`: runs the scan on a copy (`np.copy`) of the
caller's board and returns only the boolean verdict. -/
def failsG (g : Grid) : Bool :=
  (failsLoop g (allCells g)).1

/-- Source `fails` viewed with the caller's board made explicit: the result
is the verdict together with the caller's board after the call.  Since the
source copies the board (`np.copy`) before flood filling, the caller's
board is returned unchanged. -/
def failsST (g : Grid) : Bool × Grid :=
  ((failsLoop g (allCells g)).1, g)

/-!
The search engine `solve`.  Python exceptions (the out-of-range list index
`pieces[depth]` that occurs when depth equals the number of pieces but the
board is not complete) are modelled by `Option`: `none` is an uncaught
runtime error, `some n` a normal return of count `n`.  The recursion is
driven by a fuel parameter; `solve` instantiates it with
`pieces.length + 1 - depth`, which bounds the recursion depth of the
source, whose depth argument grows by one for each placed piece.
-/

/-- The anchor positions scanned by the source position loops:
`range((brows - prows) + 1)` by `range((bcols - pcols) + 1)` in row-major
order (with Python's empty range for oversized pieces). -/
def positionsList (b p : Grid) : List (ℕ × ℕ) :=
  (List.range (b.rows + 1 - p.rows)).flatMap
    (fun r => (List.range (b.cols + 1 - p.cols)).map (fun c => (r, c)))

/-- The innermost loop of `solve`: try the piece at every anchor position,
recursing (via `recur`) on every accepted and unpruned placement and
accumulating the returned counts. -/
def loopPositions (recur : Grid → Option ℕ) (b p : Grid) : List (ℕ × ℕ) → Option ℕ
  | [] => some 0
  | (row, col) :: rest =>
    if fits (sliceG b row col p.rows p.cols) p then
      let nb := placeRC b row col p
      if failsG nb then loopPositions recur b p rest
      else
        match recur nb with
        | none => none
        | some n =>
          match loopPositions recur b p rest with
          | none => none
          | some m => some (n + m)
    else loopPositions recur b p rest

/-- The rotation loop of `solve`: `k` iterations, rotating the piece by 90
degrees after each one. -/
def loopRots (recur : Grid → Option ℕ) (b p : Grid) : ℕ → Option ℕ
  | 0 => some 0
  | k + 1 =>
    match loopPositions recur b p (positionsList b p) with
    | none => none
    | some n =>
      match loopRots recur b (rot90 p) k with
      | none => none
      | some m => some (n + m)

/-- The orientation loop of `solve`: each base orientation of the current
piece goes through four rotations. -/
def loopOrients (recur : Grid → Option ℕ) (b : Grid) : List Grid → Option ℕ
  | [] => some 0
  | o :: rest =>
    match loopRots recur b o 4 with
    | none => none
    | some n =>
      match loopOrients recur b rest with
      | none => none
      | some m => some (n + m)

/-- Fueled embedding of the source `solve(board, pieces, depth)`.  The
terminal check compares the nonzero count with the literal 50 exactly as
the source does; `pieces[depth]` out of range is the modelled IndexError. -/
def solveF : ℕ → Grid → List (List Grid) → ℕ → Option ℕ
  | 0, _, _, _ => none
  | fuel + 1, board, pieces, depth =>
    if depth = pieces.length ∧ countNonzero board = 50 then some 1
    else
      match pieces[depth]? with
      | none => none
      | some orients => loopOrients (fun nb => solveF fuel nb pieces (depth + 1)) board orients

/-- Source `solve`, with fuel ample for its recursion depth. -/
def solve (board : Grid) (pieces : List (List Grid)) (depth : ℕ) : Option ℕ :=
  solveF (pieces.length + 1 - depth) board pieces depth

/-- The empty 5 by 10 playing board (`BLANK_BOARD`). -/
def blankBoard : Grid := ofLists
  [[0, 0, 0, 0, 0, 0, 0, 0, 0, 0],
   [0, 0, 0, 0, 0, 0, 0, 0, 0, 0],
   [0, 0, 0, 0, 0, 0, 0, 0, 0, 0],
   [0, 0, 0, 0, 0, 0, 0, 0, 0, 0],
   [0, 0, 0, 0, 0, 0, 0, 0, 0, 0]]

/-!
The piece catalog (`PIECES` in the source): ten pieces, each a list of two
base orientation grids whose nonzero cells carry the piece id.
-/

/-- Piece 1 (light green). -/
def piece1 : List Grid :=
  [ofLists [[1, 0, 1], [1, 1, 1]], ofLists [[1, 1, 1], [1, 0, 0]]]

/-- Piece 2 (dark green). -/
def piece2 : List Grid :=
  [ofLists [[0, 2, 0], [2, 2, 2]], ofLists [[2, 2, 2], [2, 2, 0]]]

/-- Piece 3 (yellow). -/
def piece3 : List Grid :=
  [ofLists [[3, 3, 3, 3], [0, 0, 0, 3]], ofLists [[3, 3, 3, 3], [0, 0, 3, 3]]]

/-- Piece 4 (orange). -/
def piece4 : List Grid :=
  [ofLists [[0, 4, 0, 4], [4, 4, 4, 4]], ofLists [[0, 0, 4, 0], [4, 4, 4, 4]]]

/-- Piece 5 (red). -/
def piece5 : List Grid :=
  [ofLists [[5, 5, 5, 5], [5, 0, 0, 5]], ofLists [[0, 0, 0, 5], [5, 5, 5, 5]]]

/-- Piece 6 (blue). -/
def piece6 : List Grid :=
  [ofLists [[0, 6, 0], [6, 6, 6]], ofLists [[6, 6, 6], [6, 0, 6]]]

/-- Piece 7 (purple). -/
def piece7 : List Grid :=
  [ofLists [[7, 0, 0], [7, 7, 7]], ofLists [[7, 7, 7], [0, 7, 7]]]

/-- Piece 8 (light blue). -/
def piece8 : List Grid :=
  [ofLists [[8, 8, 8, 8], [8, 0, 0, 0]], ofLists [[8, 0, 8, 0], [8, 8, 8, 8]]]

/-- Piece 9 (pink). -/
def piece9 : List Grid :=
  [ofLists [[0, 9, 0, 0], [9, 9, 9, 9]], ofLists [[9, 9, 9, 9], [9, 9, 0, 0]]]

/-- Piece 10 (cyan). -/
def piece10 : List Grid :=
  [ofLists [[0, 0, 10, 0], [10, 10, 10, 10]], ofLists [[10, 10, 10, 10], [0, 10, 10, 0]]]

/-- The full game catalog in source order. -/
def gameCatalog : List (List Grid) :=
  [piece1, piece2, piece3, piece4, piece5, piece6, piece7, piece8, piece9, piece10]

/-- The smallest nonzero-cell count among the base orientations of a
catalog (rotations preserve the count).  This is the spec's
`minPlaceableSize` for an active catalog. -/
def minPlaceable (cat : List (List Grid)) : ℕ :=
  (((cat.flatMap (fun x => x)).map countNonzero).min?).getD 0

/-- The 5 by 10 board with every cell occupied. -/
def fullBoard : Grid := ofLists
  [[1, 1, 1, 1, 1, 1, 1, 1, 1, 1],
   [1, 1, 1, 1, 1, 1, 1, 1, 1, 1],
   [1, 1, 1, 1, 1, 1, 1, 1, 1, 1],
   [1, 1, 1, 1, 1, 1, 1, 1, 1, 1],
   [1, 1, 1, 1, 1, 1, 1, 1, 1, 1]]

/-!
Spec-side notions for the Dead-Region Detector claims: 4-directional
adjacency, reachability through empty cells, and the maximal connected
component of empty cells containing a given cell.  These are the claim's
mathematical notions, stated independently of the flood-fill code.
-/

/-- A coordinate is in bounds for a grid. -/
def inb (g : Grid) (p : ℕ × ℕ) : Prop :=
  p.1 < g.rows ∧ p.2 < g.cols

instance instDecidableInb (g : Grid) (p : ℕ × ℕ) : Decidable (inb g p) :=
  inferInstanceAs (Decidable (p.1 < g.rows ∧ p.2 < g.cols))

/-- 4-directional (cardinal) adjacency of coordinates. -/
def adjacent (p q : ℕ × ℕ) : Prop :=
  (p.1 = q.1 ∧ (p.2 + 1 = q.2 ∨ q.2 + 1 = p.2)) ∨
  (p.2 = q.2 ∧ (p.1 + 1 = q.1 ∨ q.1 + 1 = p.1))

/-- One step from `p` to an in-bounds empty neighbour `q`. -/
def zstep (g : Grid) (p q : ℕ × ℕ) : Prop :=
  inb g q ∧ g.cell q.1 q.2 = 0 ∧ adjacent p q

/-- Reachability from `p` through in-bounds empty cells. -/
def reach (g : Grid) (p q : ℕ × ℕ) : Prop :=
  Relation.ReflTransGen (zstep g) p q

open Classical in
/-- The connected component of empty cells containing `p`: all in-range
cells reachable from `p` through empty cells.  For an empty in-bounds `p`
this is the claim's maximal 4-connected empty region containing `p`. -/
noncomputable def comp (g : Grid) (p : ℕ × ℕ) : Finset (ℕ × ℕ) :=
  (gridF g).filter (fun q => reach g p q)

open Classical in
/-- The component `comp` guarded by the flood fill's entry test: the component of an
empty in-bounds seed, and the empty set otherwise. -/
noncomputable def comp0 (g : Grid) (p : ℕ × ℕ) : Finset (ℕ × ℕ) :=
  if inb g p ∧ g.cell p.1 p.2 = 0 then comp g p else ∅

/-- Mark every cell of `K` with the sentinel 3. -/
def markF (g : Grid) (K : Finset (ℕ × ℕ)) : Grid :=
  ⟨g.rows, g.cols, fun i j => if (i, j) ∈ K then 3 else g.cell i j⟩

/-- The union of the guarded components of a list of seeds. -/
noncomputable def compU (g : Grid) : List (ℕ × ℕ) → Finset (ℕ × ℕ)
  | [] => ∅
  | s :: rest => comp0 g s ∪ compU g rest

/-- A set of cells closed under steps to empty in-bounds neighbours. -/
def closedZ (g : Grid) (K : Finset (ℕ × ℕ)) : Prop :=
  ∀ x ∈ K, ∀ y, zstep g x y → y ∈ K

/-- Flood fill over a list of seed cells, threading the board left to
right and summing the sizes (the shape of the four sequential recursive
calls in `get_region_size`). -/
def grsList (fuel : ℕ) : Grid → List (ℕ × ℕ) → Grid × ℕ
  | b, [] => (b, 0)
  | b, s :: rest =>
    let x := grsF fuel b s.1 s.2
    let y := grsList fuel x.1 rest
    (y.1, x.2 + y.2)

/-- The in-bounds neighbours probed by `get_region_size`, in source order:
up, down, left, right. -/
def nbrsList (b : Grid) (row col : ℕ) : List (ℕ × ℕ) :=
  (if 1 ≤ row then [(row - 1, col)] else []) ++
  (if row + 1 < b.rows then [(row + 1, col)] else []) ++
  (if 1 ≤ col then [(row, col - 1)] else []) ++
  (if col + 1 < b.cols then [(row, col + 1)] else [])

/-- A one-piece catalog whose only orientation covers three cells. -/
def triPiece : Grid := ofLists [[1, 1, 1]]

/-- An active catalog with minimum placeable size 3. -/
def cat3 : List (List Grid) := [[triPiece]]

/-- A 2 by 3 board whose empty cells form a single component of size 3. -/
def demoB : Grid := ofLists [[0, 0, 0], [1, 1, 1]]

/-- The empty cells of `demoB`. -/
def demoRow : Finset (ℕ × ℕ) := {(0, 0), (0, 1), (0, 2)}

/-- Iterated 90 degree rotation. -/
def rotIter : ℕ → Grid → Grid
  | 0, g => g
  | k + 1, g => rotIter k (rot90 g)

/-- A 5 by 10 board with a single isolated empty cell in the corner,
surrounded by occupied cells. -/
def board49 : Grid := ofLists
  [[0, 1, 1, 1, 1, 1, 1, 1, 1, 1],
   [1, 1, 1, 1, 1, 1, 1, 1, 1, 1],
   [1, 1, 1, 1, 1, 1, 1, 1, 1, 1],
   [1, 1, 1, 1, 1, 1, 1, 1, 1, 1],
   [1, 1, 1, 1, 1, 1, 1, 1, 1, 1]]

/-- The scan pattern of `fails` without its early exit: visit every cell
in order and flood fill each still-empty one, collecting the region
sizes. -/
def fullScan : Grid → List (ℕ × ℕ) → Grid × List ℕ
  | b, [] => (b, [])
  | b, p :: rest =>
    if b.cell p.1 p.2 = 0 then
      let s := get_region_size b p.1 p.2
      let t := fullScan s.1 rest
      (t.1, s.2 :: t.2)
    else fullScan b rest

/-- The region sizes actually returned by the successive
`get_region_size` calls of the `fails` scan, which stops as soon as a
region smaller than 4 is found. -/
def failsScanSizes : Grid → List (ℕ × ℕ) → List ℕ
  | _, [] => []
  | b, p :: rest =>
    if b.cell p.1 p.2 = 0 then
      let s := get_region_size b p.1 p.2
      if s.2 < 4 then [s.2] else s.2 :: failsScanSizes s.1 rest
    else failsScanSizes b rest

/-- Spec side: the successive empty components flooded by the full
scan. -/
noncomputable def scanCompsAux : Grid → List (ℕ × ℕ) → List (Finset (ℕ × ℕ))
  | _, [] => []
  | b, p :: rest =>
    if inb b p ∧ b.cell p.1 p.2 = 0 then
      comp b p :: scanCompsAux (markF b (comp b p)) rest
    else scanCompsAux b rest

/-- A board on which the `fails` scan exits early: the first region found
has one cell, but two more empty cells were never counted. -/
def demoB2 : Grid := ofLists [[0, 1, 0], [1, 1, 0]]

/-!
Theorems: general lemmas about the embedding, followed by the claim
theorems, their witnesses and counterexamples.
-/

/-- Bitwise or of naturals vanishes exactly when both arguments vanish. -/
theorem lor_eq_zero_iff (a b : ℕ) : a ||| b = 0 ↔ a = 0 ∧ b = 0 := by
  constructor
  · intro h
    have key : ∀ k, a.testBit k = false ∧ b.testBit k = false := by
      intro k
      have hbit := congrArg (fun x => Nat.testBit x k) h
      simp [Nat.testBit_lor] at hbit
      exact hbit
    exact ⟨Nat.eq_of_testBit_eq (by simp [fun k => (key k).1]),
      Nat.eq_of_testBit_eq (by simp [fun k => (key k).2])⟩
  · rintro ⟨rfl, rfl⟩
    rfl

theorem gridF_mem {g : Grid} {q : ℕ × ℕ} :
    q ∈ gridF g ↔ q.1 < g.rows ∧ q.2 < g.cols := by
  simp [gridF]

/-- The nonzero-cell set of a bitwise or is the union of the two
nonzero-cell sets (over the common coordinate range). -/
theorem orG_nonzeros (b p : Grid) :
    (gridF (orG b p)).filter (fun q => (orG b p).cell q.1 q.2 ≠ 0) =
      ((gridF b).filter (fun q => b.cell q.1 q.2 ≠ 0)) ∪
      ((gridF b).filter (fun q => p.cell q.1 q.2 ≠ 0)) := by
  have hg : gridF (orG b p) = gridF b := rfl
  rw [hg, ← Finset.filter_or]
  apply Finset.filter_congr
  intro q _
  simp only [orG, eq_iff_iff]
  constructor
  · intro h
    by_contra hc
    push_neg at hc
    exact h ((lor_eq_zero_iff _ _).mpr ⟨hc.1, hc.2⟩)
  · intro h hz
    rcases (lor_eq_zero_iff _ _).mp hz with ⟨h1, h2⟩
    rcases h with h | h
    · exact h h1
    · exact h h2

/-- C1. `fits(boardRegion, orientation)` on same-shape grids returns true
iff no coordinate is nonzero in both inputs.  (The union-count formulation
is the literal definition of `fits`; the embedding is a pure function, so
freedom from side effects holds by construction.) -/
theorem fits_iff_disjoint (b p : Grid) (hr : b.rows = p.rows) (hc : b.cols = p.cols) :
    fits b p = true ↔
      ∀ i j, i < b.rows → j < b.cols → ¬(b.cell i j ≠ 0 ∧ p.cell i j ≠ 0) := by
  have hgf : gridF p = gridF b := by
    simp [gridF, hr, hc]
  set A := (gridF b).filter (fun q => b.cell q.1 q.2 ≠ 0) with hA
  set B := (gridF b).filter (fun q => p.cell q.1 q.2 ≠ 0) with hB
  have hfits : fits b p = true ↔ (A ∪ B).card = A.card + B.card := by
    simp only [fits, beq_iff_eq, countNonzero, orG_nonzeros, hgf, hA, hB]
  rw [hfits]
  have hcards := Finset.card_union_add_card_inter A B
  constructor
  · intro h i j hi hj ⟨hbz, hpz⟩
    have hmem : (i, j) ∈ A ∩ B := by
      simp [hA, hB, Finset.mem_inter, Finset.mem_filter, gridF_mem, hi, hj, hbz, hpz]
    have hinter : (A ∩ B).card = 0 := by omega
    rw [Finset.card_eq_zero] at hinter
    rw [hinter] at hmem
    exact absurd hmem (Finset.not_mem_empty _)
  · intro h
    have hinter : A ∩ B = ∅ := by
      apply Finset.eq_empty_of_forall_not_mem
      intro q hq
      simp only [hA, hB, Finset.mem_inter, Finset.mem_filter] at hq
      exact h q.1 q.2 (gridF_mem.mp hq.1.1).1 (gridF_mem.mp hq.1.1).2 ⟨hq.1.2, hq.2.2⟩
    rw [hinter] at hcards
    simpa using hcards

theorem fits_iff_disjoint_witness :
    fits exampleBoard examplePiece = true ↔
      ∀ i j, i < exampleBoard.rows → j < exampleBoard.cols →
        ¬(exampleBoard.cell i j ≠ 0 ∧ examplePiece.cell i j ≠ 0) :=
  fits_iff_disjoint exampleBoard examplePiece (by decide) (by decide)

/-- C9. Applying the 90 degree rotation four times yields a grid equal to
the original in both dimensions and in every in-range cell. -/
theorem rot90_four_times (g : Grid) :
    (rot90 (rot90 (rot90 (rot90 g)))).rows = g.rows ∧
    (rot90 (rot90 (rot90 (rot90 g)))).cols = g.cols ∧
    ∀ i j, i < g.rows → j < g.cols →
      (rot90 (rot90 (rot90 (rot90 g)))).cell i j = g.cell i j := by
  refine ⟨rfl, rfl, ?_⟩
  intro i j hi hj
  have h1 : g.rows - 1 - (g.rows - 1 - i) = i := by omega
  have h2 : g.cols - 1 - (g.cols - 1 - j) = j := by omega
  simp only [rot90, h1, h2]

theorem rot90_four_times_witness :
    (rot90 (rot90 (rot90 (rot90 examplePiece)))).cell 1 2 = examplePiece.cell 1 2 :=
  (rot90_four_times examplePiece).2.2 1 2 (by decide) (by decide)

theorem lor_ne_zero_left {a : ℕ} (b : ℕ) (h : a ≠ 0) : a ||| b ≠ 0 := by
  intro hz
  exact h ((lor_eq_zero_iff a b).mp hz).1

theorem lor_ne_zero_right (a : ℕ) {b : ℕ} (h : b ≠ 0) : a ||| b ≠ 0 := by
  intro hz
  exact h ((lor_eq_zero_iff a b).mp hz).2

/-- C3. If the Fit Tester accepts a placement whose bounding box lies in
the board, merging the orientation into the board region yields a board
whose nonzero count is the old count plus exactly the orientation's nonzero
count; in particular the count never decreases. -/
theorem place_count_exact (b p : Grid) (row col : ℕ)
    (hrb : row + p.rows ≤ b.rows) (hcb : col + p.cols ≤ b.cols)
    (hfit : fits (sliceG b row col p.rows p.cols) p = true) :
    countNonzero (placeRC b row col p) = countNonzero b + countNonzero p ∧
      countNonzero b ≤ countNonzero (placeRC b row col p) := by
  have hdisj := (fits_iff_disjoint (sliceG b row col p.rows p.cols) p rfl rfl).mp hfit
  simp only [sliceG] at hdisj
  set A := (gridF b).filter (fun q => b.cell q.1 q.2 ≠ 0) with hA
  set B := (gridF p).filter (fun q => p.cell q.1 q.2 ≠ 0) with hB
  set B2 := B.image (fun q => (row + q.1, col + q.2)) with hB2
  have hinj : Function.Injective (fun q : ℕ × ℕ => (row + q.1, col + q.2)) := by
    intro x y hxy
    simp only [Prod.mk.injEq] at hxy
    exact Prod.ext (by omega) (by omega)
  have hBcard : B2.card = B.card := Finset.card_image_of_injective _ hinj
  have hmemB2 : ∀ q : ℕ × ℕ, q ∈ B2 ↔
      row ≤ q.1 ∧ q.1 < row + p.rows ∧ col ≤ q.2 ∧ q.2 < col + p.cols ∧
        p.cell (q.1 - row) (q.2 - col) ≠ 0 := by
    intro q
    simp only [hB2, hB, Finset.mem_image, Finset.mem_filter, gridF_mem]
    constructor
    · rintro ⟨a, ⟨⟨ha1, ha2⟩, ha3⟩, rfl⟩
      refine ⟨by omega, by omega, by omega, by omega, ?_⟩
      simpa [Nat.add_sub_cancel_left] using ha3
    · rintro ⟨h1, h2, h3, h4, h5⟩
      refine ⟨(q.1 - row, q.2 - col), ⟨⟨by omega, by omega⟩, h5⟩, ?_⟩
      exact Prod.ext (by omega) (by omega)
  have hset : (gridF (placeRC b row col p)).filter
      (fun q => (placeRC b row col p).cell q.1 q.2 ≠ 0) = A ∪ B2 := by
    have hgf : gridF (placeRC b row col p) = gridF b := rfl
    rw [hgf]
    ext q
    simp only [Finset.mem_filter, Finset.mem_union]
    constructor
    · rintro ⟨hqg, hnz⟩
      by_cases hreg : row ≤ q.1 ∧ q.1 < row + p.rows ∧ col ≤ q.2 ∧ q.2 < col + p.cols
      · have hcell : (placeRC b row col p).cell q.1 q.2
            = b.cell q.1 q.2 ||| p.cell (q.1 - row) (q.2 - col) := by
          simp only [placeRC, if_pos hreg]
        rw [hcell] at hnz
        by_cases hbz : b.cell q.1 q.2 = 0
        · right
          rw [hmemB2 q]
          refine ⟨hreg.1, hreg.2.1, hreg.2.2.1, hreg.2.2.2, ?_⟩
          intro hpz
          exact hnz ((lor_eq_zero_iff _ _).mpr ⟨hbz, hpz⟩)
        · left
          exact Finset.mem_filter.mpr ⟨hqg, hbz⟩
      · have hcell : (placeRC b row col p).cell q.1 q.2 = b.cell q.1 q.2 := by
          simp only [placeRC, if_neg hreg]
        left
        exact Finset.mem_filter.mpr ⟨hqg, hcell ▸ hnz⟩
    · rintro (hq | hq)
      · rcases Finset.mem_filter.mp hq with ⟨hqg, hbz⟩
        refine ⟨hqg, ?_⟩
        by_cases hreg : row ≤ q.1 ∧ q.1 < row + p.rows ∧ col ≤ q.2 ∧ q.2 < col + p.cols
        · simp only [placeRC, if_pos hreg]
          exact lor_ne_zero_left _ hbz
        · simp only [placeRC, if_neg hreg]
          exact hbz
      · have hq2 := (hmemB2 q).mp hq
        have hqg : q ∈ gridF b := gridF_mem.mpr ⟨by omega, by omega⟩
        refine ⟨hqg, ?_⟩
        have hreg : row ≤ q.1 ∧ q.1 < row + p.rows ∧ col ≤ q.2 ∧ q.2 < col + p.cols :=
          ⟨hq2.1, hq2.2.1, hq2.2.2.1, hq2.2.2.2.1⟩
        simp only [placeRC, if_pos hreg]
        exact lor_ne_zero_right _ hq2.2.2.2.2
  have hdisjAB : Disjoint A B2 := by
    rw [Finset.disjoint_left]
    intro q hqA hqB
    rcases Finset.mem_filter.mp hqA with ⟨hqg, hbz⟩
    have hq2 := (hmemB2 q).mp hqB
    have hlt1 : q.1 - row < p.rows := by omega
    have hlt2 : q.2 - col < p.cols := by omega
    have := hdisj (q.1 - row) (q.2 - col) hlt1 hlt2
    have he1 : row + (q.1 - row) = q.1 := by omega
    have he2 : col + (q.2 - col) = q.2 := by omega
    rw [he1, he2] at this
    exact this ⟨hbz, hq2.2.2.2.2⟩
  have hfinal : countNonzero (placeRC b row col p) = countNonzero b + countNonzero p := by
    unfold countNonzero
    rw [hset, Finset.card_union_of_disjoint hdisjAB, hBcard]
  exact ⟨hfinal, by omega⟩

theorem place_count_exact_witness :
    countNonzero (placeRC exampleBoard2 0 0 examplePiece) =
      countNonzero exampleBoard2 + countNonzero examplePiece ∧
      countNonzero exampleBoard2 ≤ countNonzero (placeRC exampleBoard2 0 0 examplePiece) :=
  place_count_exact exampleBoard2 examplePiece 0 0 (by decide) (by decide) (by decide)

/-- C4.  The claim says `solve` is total and never raises a runtime error,
in particular when depth equals the number of pieces with an incomplete
board.  The code contradicts this: with an incomplete board and an empty
piece list the terminal guard fails and `pieces[depth]` raises IndexError,
modelled here as `none`. -/
theorem solve_indexerror_at_depth_len :
    solve blankBoard [] 0 = none := by
  have hcount : countNonzero blankBoard = 0 := by decide
  simp [solve, solveF, hcount]

/-- C6. On a complete 5 by 10 board (all 50 cells occupied) with an empty
piece list, `solve` at depth 0 returns exactly 1. -/
theorem solve_complete_no_pieces (g : Grid)
    (hr : g.rows = 5) (hc : g.cols = 10) (hfull : countNonzero g = 50) :
    solve g [] 0 = some 1 := by
  simp [solve, solveF, hfull]

theorem solve_complete_no_pieces_witness :
    solve fullBoard [] 0 = some 1 :=
  solve_complete_no_pieces fullBoard (by decide) (by decide) (by decide)

theorem markF_rows (g : Grid) (K : Finset (ℕ × ℕ)) : (markF g K).rows = g.rows := rfl

theorem markF_cols (g : Grid) (K : Finset (ℕ × ℕ)) : (markF g K).cols = g.cols := rfl

theorem gridF_markF (g : Grid) (K : Finset (ℕ × ℕ)) : gridF (markF g K) = gridF g := rfl

theorem inb_markF (g : Grid) (K : Finset (ℕ × ℕ)) (q : ℕ × ℕ) :
    inb (markF g K) q ↔ inb g q := Iff.rfl

theorem markF_cell_of_mem {g : Grid} {K : Finset (ℕ × ℕ)} {q : ℕ × ℕ} (h : q ∈ K) :
    (markF g K).cell q.1 q.2 = 3 := by
  simp [markF, h]

theorem markF_cell_of_not_mem {g : Grid} {K : Finset (ℕ × ℕ)} {q : ℕ × ℕ} (h : q ∉ K) :
    (markF g K).cell q.1 q.2 = g.cell q.1 q.2 := by
  simp [markF, h]

theorem markF_empty (g : Grid) : markF g ∅ = g := by
  ext i j <;> simp [markF]

theorem markF_markF (g : Grid) (K L : Finset (ℕ × ℕ)) :
    markF (markF g K) L = markF g (K ∪ L) := by
  ext i j
  · rfl
  · rfl
  · simp only [markF, Finset.mem_union]
    by_cases hL : (i, j) ∈ L <;> by_cases hK : (i, j) ∈ K <;> simp [hL, hK]

theorem zerosF_markF (g : Grid) (K : Finset (ℕ × ℕ)) :
    zerosF (markF g K) = zerosF g \ K := by
  ext q
  simp only [zerosF, Finset.mem_sdiff, Finset.mem_filter, gridF_markF]
  by_cases hq : q ∈ K
  · have : (markF g K).cell q.1 q.2 = 3 := markF_cell_of_mem hq
    simp [this, hq]
  · have : (markF g K).cell q.1 q.2 = g.cell q.1 q.2 := markF_cell_of_not_mem hq
    simp [this, hq]

theorem adjacent_symm {p q : ℕ × ℕ} (h : adjacent p q) : adjacent q p := by
  rcases h with ⟨h1, h2⟩ | ⟨h1, h2⟩
  · exact Or.inl ⟨h1.symm, h2.symm⟩
  · exact Or.inr ⟨h1.symm, h2.symm⟩

theorem adjacent_ne {p q : ℕ × ℕ} (h : adjacent p q) : p ≠ q := by
  rcases h with ⟨h1, h2⟩ | ⟨h1, h2⟩ <;>
    · intro he
      rw [he] at h2
      omega

theorem mem_comp {g : Grid} {p q : ℕ × ℕ} :
    q ∈ comp g p ↔ (q.1 < g.rows ∧ q.2 < g.cols) ∧ reach g p q := by
  simp [comp, Finset.mem_filter, gridF_mem]

theorem comp_self_mem {g : Grid} {p : ℕ × ℕ} (hp : inb g p) : p ∈ comp g p :=
  mem_comp.mpr ⟨⟨hp.1, hp.2⟩, Relation.ReflTransGen.refl⟩

/-- Every element of a reachability chain other than the start is an empty
in-bounds cell. -/
theorem reach_target {g : Grid} {p q : ℕ × ℕ} (h : reach g p q) :
    q = p ∨ (inb g q ∧ g.cell q.1 q.2 = 0) := by
  induction h with
  | refl => exact Or.inl rfl
  | tail _ hstep _ => exact Or.inr ⟨hstep.1, hstep.2.1⟩

theorem comp_subset_zerosF {g : Grid} {p : ℕ × ℕ} (hp : inb g p)
    (hz : g.cell p.1 p.2 = 0) : comp g p ⊆ zerosF g := by
  intro q hq
  rcases mem_comp.mp hq with ⟨hqg, hreach⟩
  rcases reach_target hreach with rfl | ⟨_, hq0⟩
  · exact Finset.mem_filter.mpr ⟨gridF_mem.mpr hqg, hz⟩
  · exact Finset.mem_filter.mpr ⟨gridF_mem.mpr hqg, hq0⟩

theorem comp_closedZ (g : Grid) (p : ℕ × ℕ) : closedZ g (comp g p) := by
  intro x hx y hy
  rcases mem_comp.mp hx with ⟨_, hreach⟩
  exact mem_comp.mpr ⟨⟨hy.1.1, hy.1.2⟩, hreach.tail hy⟩

theorem comp0_closedZ (g : Grid) (p : ℕ × ℕ) : closedZ g (comp0 g p) := by
  unfold comp0
  split
  · exact comp_closedZ g p
  · intro x hx
    exact absurd hx (Finset.not_mem_empty x)

theorem closedZ_empty (g : Grid) : closedZ g (∅ : Finset (ℕ × ℕ)) := by
  intro x hx
  exact absurd hx (Finset.not_mem_empty x)

theorem closedZ_union {g : Grid} {K L : Finset (ℕ × ℕ)}
    (hK : closedZ g K) (hL : closedZ g L) : closedZ g (K ∪ L) := by
  intro x hx y hy
  rcases Finset.mem_union.mp hx with hx | hx
  · exact Finset.mem_union_left _ (hK x hx y hy)
  · exact Finset.mem_union_right _ (hL x hx y hy)

/-- Reachability cannot leave a closed set. -/
theorem reach_mem_of_closed {g : Grid} {K : Finset (ℕ × ℕ)} {p q : ℕ × ℕ}
    (hcl : closedZ g K) (hp : p ∈ K) (h : reach g p q) : q ∈ K := by
  induction h with
  | refl => exact hp
  | tail _ hstep ih => exact hcl _ ih _ hstep

/-- A closed set containing a seed contains the seed's component. -/
theorem comp_subset_of_closed {g : Grid} {K : Finset (ℕ × ℕ)} {p : ℕ × ℕ}
    (hcl : closedZ g K) (hp : p ∈ K) : comp g p ⊆ K := by
  intro q hq
  exact reach_mem_of_closed hcl hp (mem_comp.mp hq).2

theorem reach_mono_mark {g : Grid} {K : Finset (ℕ × ℕ)} {p q : ℕ × ℕ}
    (h : reach (markF g K) p q) : reach g p q := by
  refine Relation.ReflTransGen.mono ?_ h
  intro x y hxy
  rcases hxy with ⟨hi, hz, ha⟩
  refine ⟨hi, ?_, ha⟩
  by_cases hy : y ∈ K
  · rw [markF_cell_of_mem hy] at hz
    exact absurd hz (by norm_num)
  · rw [markF_cell_of_not_mem hy] at hz
    exact hz

theorem reach_symm {g : Grid} {p q : ℕ × ℕ} (hp : inb g p) (hz : g.cell p.1 p.2 = 0)
    (h : reach g p q) : reach g q p := by
  induction h with
  | refl => exact Relation.ReflTransGen.refl
  | tail hr hstep ih =>
    rename_i m q'
    have hm : inb g m ∧ g.cell m.1 m.2 = 0 := by
      rcases reach_target hr with rfl | hm
      · exact ⟨hp, hz⟩
      · exact hm
    exact Relation.ReflTransGen.head ⟨hm.1, hm.2, adjacent_symm hstep.2.2⟩ ih

theorem comp_eq_of_mem {g : Grid} {p s : ℕ × ℕ} (hp : inb g p) (hz : g.cell p.1 p.2 = 0)
    (hs : s ∈ comp g p) : comp g s = comp g p := by
  rcases mem_comp.mp hs with ⟨_, hreach⟩
  have hback : reach g s p := reach_symm hp hz hreach
  ext q
  simp only [mem_comp]
  constructor
  · rintro ⟨hqg, hr⟩
    exact ⟨hqg, hreach.trans hr⟩
  · rintro ⟨hqg, hr⟩
    exact ⟨hqg, hback.trans hr⟩

/-- If an unmarked empty in-bounds cell reaches `q` in the original grid,
the chain avoids any closed marked set and survives marking. -/
theorem reach_avoid {g : Grid} {K : Finset (ℕ × ℕ)} {p q : ℕ × ℕ}
    (hcl : closedZ g K) (hp : p ∉ K) (hpi : inb g p) (hpz : g.cell p.1 p.2 = 0)
    (h : reach g p q) : q ∉ K ∧ reach (markF g K) p q := by
  induction h with
  | refl => exact ⟨hp, Relation.ReflTransGen.refl⟩
  | tail hr hstep ih =>
    rename_i m q'
    have hm : inb g m ∧ g.cell m.1 m.2 = 0 := by
      rcases reach_target hr with rfl | hm
      · exact ⟨hpi, hpz⟩
      · exact hm
    have hq' : q' ∉ K := by
      intro hq'
      exact ih.1 (hcl q' hq' m ⟨hm.1, hm.2, adjacent_symm hstep.2.2⟩)
    refine ⟨hq', ih.2.tail ⟨hstep.1, ?_, hstep.2.2⟩⟩
    show (markF g K).cell q'.1 q'.2 = 0
    rw [markF_cell_of_not_mem hq']
    exact hstep.2.1

/-- Marking a closed set does not change the component of a cell outside
it. -/
theorem comp_markF_stable {g : Grid} {K : Finset (ℕ × ℕ)} {p : ℕ × ℕ}
    (hcl : closedZ g K) (hp : p ∉ K) (hpi : inb g p) (hpz : g.cell p.1 p.2 = 0) :
    comp (markF g K) p = comp g p := by
  ext q
  simp only [mem_comp, markF_rows, markF_cols]
  constructor
  · rintro ⟨hqg, hr⟩
    exact ⟨hqg, reach_mono_mark hr⟩
  · rintro ⟨hqg, hr⟩
    exact ⟨hqg, (reach_avoid hcl hp hpi hpz hr).2⟩

theorem mem_compU {g : Grid} {l : List (ℕ × ℕ)} {q : ℕ × ℕ} :
    q ∈ compU g l ↔ ∃ n ∈ l, (inb g n ∧ g.cell n.1 n.2 = 0) ∧ q ∈ comp g n := by
  induction l with
  | nil => simp [compU]
  | cons s rest ih =>
    simp only [compU, Finset.mem_union, ih, List.mem_cons]
    constructor
    · rintro (hq | ⟨n, hn, hq⟩)
      · by_cases hc : inb g s ∧ g.cell s.1 s.2 = 0
        · rw [comp0, if_pos hc] at hq
          exact ⟨s, Or.inl rfl, hc, hq⟩
        · rw [comp0, if_neg hc] at hq
          exact absurd hq (Finset.not_mem_empty q)
      · exact ⟨n, Or.inr hn, hq⟩
    · rintro ⟨n, hn | hn, hq⟩
      · subst hn
        left
        rw [comp0, if_pos hq.1]
        exact hq.2
      · exact Or.inr ⟨n, hn, hq⟩

theorem comp0_subset_zerosF (g : Grid) (s : ℕ × ℕ) : comp0 g s ⊆ zerosF g := by
  by_cases hc : inb g s ∧ g.cell s.1 s.2 = 0
  · rw [comp0, if_pos hc]
    exact comp_subset_zerosF hc.1 hc.2
  · rw [comp0, if_neg hc]
    exact Finset.empty_subset _

theorem compU_subset_zerosF (g : Grid) (l : List (ℕ × ℕ)) : compU g l ⊆ zerosF g := by
  induction l with
  | nil => simp [compU]
  | cons s rest ih =>
    simp only [compU]
    exact Finset.union_subset (comp0_subset_zerosF g s) ih

theorem compU_closedZ (g : Grid) (l : List (ℕ × ℕ)) : closedZ g (compU g l) := by
  induction l with
  | nil => exact closedZ_empty g
  | cons s rest ih => exact closedZ_union (comp0_closedZ g s) ih

/-- Effect of marking a closed set of empty cells on a guarded
component. -/
theorem comp0_markF_eq {g : Grid} {K : Finset (ℕ × ℕ)} (hcl : closedZ g K)
    (hKz : K ⊆ zerosF g) (s : ℕ × ℕ) :
    comp0 (markF g K) s = comp0 g s \ K := by
  by_cases hsK : s ∈ K
  · have h3 : (markF g K).cell s.1 s.2 = 3 := markF_cell_of_mem hsK
    have hs := Finset.mem_filter.mp (hKz hsK)
    have hsin : inb g s := ⟨(gridF_mem.mp hs.1).1, (gridF_mem.mp hs.1).2⟩
    have hL : comp0 (markF g K) s = ∅ := by
      rw [comp0, if_neg]
      rintro ⟨_, hz⟩
      rw [h3] at hz
      exact absurd hz (by norm_num)
    have hR : comp0 g s \ K = ∅ := by
      rw [comp0, if_pos ⟨hsin, hs.2⟩, Finset.sdiff_eq_empty_iff_subset]
      exact comp_subset_of_closed hcl hsK
    rw [hL, hR]
  · by_cases hc : inb g s ∧ g.cell s.1 s.2 = 0
    · have hcell : (markF g K).cell s.1 s.2 = g.cell s.1 s.2 := markF_cell_of_not_mem hsK
      have hL : comp0 (markF g K) s = comp g s := by
        rw [comp0, if_pos ⟨hc.1, by rw [hcell]; exact hc.2⟩]
        exact comp_markF_stable hcl hsK hc.1 hc.2
      have hdisj : Disjoint (comp g s) K := by
        rw [Finset.disjoint_left]
        intro x hx hxK
        have h1 : comp g x = comp g s := comp_eq_of_mem hc.1 hc.2 hx
        have h2 : s ∈ comp g x := h1 ▸ comp_self_mem hc.1
        exact hsK (comp_subset_of_closed hcl hxK h2)
      have hR : comp0 g s \ K = comp g s := by
        rw [comp0, if_pos hc]
        exact Finset.sdiff_eq_self_iff_disjoint.mpr hdisj
      rw [hL, hR]
    · have hcell : (markF g K).cell s.1 s.2 = g.cell s.1 s.2 := markF_cell_of_not_mem hsK
      have hL : comp0 (markF g K) s = ∅ := by
        rw [comp0, if_neg]
        rintro ⟨hi, hz⟩
        rw [hcell] at hz
        exact hc ⟨hi, hz⟩
      have hR : comp0 g s \ K = ∅ := by
        rw [comp0, if_neg hc]
        exact Finset.empty_sdiff K
      rw [hL, hR]

theorem compU_markF_eq {g : Grid} {K : Finset (ℕ × ℕ)} (hcl : closedZ g K)
    (hKz : K ⊆ zerosF g) (l : List (ℕ × ℕ)) :
    compU (markF g K) l = compU g l \ K := by
  induction l with
  | nil => simp [compU]
  | cons s rest ih =>
    simp only [compU, ih, comp0_markF_eq hcl hKz s, Finset.union_sdiff_distrib]

theorem grsF_mark_eq (b : Grid) (row col : ℕ) :
    (⟨b.rows, b.cols, fun i j => if i = row ∧ j = col then 3 else b.cell i j⟩ : Grid)
      = markF b {(row, col)} := by
  ext i j
  · rfl
  · rfl
  · simp [markF, Prod.ext_iff]

theorem mem_nbrsList {b : Grid} {row col : ℕ} (hp : inb b (row, col)) (q : ℕ × ℕ) :
    q ∈ nbrsList b row col ↔ inb b q ∧ adjacent (row, col) q := by
  obtain ⟨a, c⟩ := q
  have hr : row < b.rows := hp.1
  have hc : col < b.cols := hp.2
  by_cases h1 : 1 ≤ row <;> by_cases h2 : row + 1 < b.rows <;>
    by_cases h3 : 1 ≤ col <;> by_cases h4 : col + 1 < b.cols <;>
    · simp only [nbrsList, h1, h2, h3, h4, if_true, if_false, List.append_nil,
        List.nil_append, List.mem_append, List.mem_singleton, List.not_mem_nil,
        Prod.mk.injEq, inb, adjacent, false_or, or_false]
      first
      | omega
      | (rw [false_iff]; omega)

/-- One unfolding of the flood fill on an empty cell: mark the cell, then
flood the four in-bounds neighbours sequentially. -/
theorem grsF_succ_zero (fuel : ℕ) (b : Grid) (row col : ℕ) (h : b.cell row col = 0) :
    grsF (fuel + 1) b row col =
      ((grsList fuel (markF b {(row, col)}) (nbrsList b row col)).1,
        1 + (grsList fuel (markF b {(row, col)}) (nbrsList b row col)).2) := by
  simp only [grsF, if_pos h, grsF_mark_eq]
  by_cases h1 : 1 ≤ row <;> by_cases h2 : row + 1 < b.rows <;>
    by_cases h3 : 1 ≤ col <;> by_cases h4 : col + 1 < b.cols <;>
    · simp only [nbrsList, h1, h2, h3, h4, if_true, if_false, List.append_nil,
        List.nil_append, List.cons_append, grsList, Prod.mk.injEq]
      try (exact ⟨by trivial, by omega⟩)

/-- Decompose a reachability chain from `p`: either it stops at `p`, or it
passes through a neighbour of `p` and then stays inside the grid with `p`
marked. -/
theorem reach_decomp {g : Grid} {p q : ℕ × ℕ} (hp : inb g p) (hz : g.cell p.1 p.2 = 0)
    (h : reach g p q) :
    q = p ∨ ∃ n ∈ nbrsList g p.1 p.2, (markF g {p}).cell n.1 n.2 = 0 ∧
      reach (markF g {p}) n q := by
  induction h with
  | refl => exact Or.inl rfl
  | tail hr hstep ih =>
    rename_i m q'
    by_cases hqp : q' = p
    · exact Or.inl hqp
    · right
      have hq'z : (markF g {p}).cell q'.1 q'.2 = 0 := by
        rw [markF_cell_of_not_mem (by simp [hqp])]
        exact hstep.2.1
      rcases ih with heq | ⟨n, hn, hnz, hreach⟩
      · rw [heq] at hstep
        refine ⟨q', ?_, hq'z, Relation.ReflTransGen.refl⟩
        exact (mem_nbrsList (by exact hp) q').mpr ⟨hstep.1, hstep.2.2⟩
      · exact ⟨n, hn, hnz, hreach.tail ⟨hstep.1, hq'z, hstep.2.2⟩⟩

/-- The component of an empty in-bounds cell is the cell itself together
with the components, after marking it, of its empty neighbours. -/
theorem comp_decomp {g : Grid} {p : ℕ × ℕ} (hp : inb g p) (hz : g.cell p.1 p.2 = 0) :
    comp g p = insert p (compU (markF g {p}) (nbrsList g p.1 p.2)) := by
  ext q
  simp only [Finset.mem_insert, mem_comp, mem_compU]
  constructor
  · rintro ⟨hqg, hr⟩
    rcases reach_decomp hp hz hr with rfl | ⟨n, hn, hnz, hreach⟩
    · exact Or.inl rfl
    · right
      have hninb : inb g n := ((mem_nbrsList hp n).mp (by exact hn)).1
      exact ⟨n, hn, ⟨hninb, hnz⟩, by exact hqg, hreach⟩
  · rintro (rfl | ⟨n, hn, ⟨hninb, hnz⟩, hqg, hr⟩)
    · exact ⟨⟨hp.1, hp.2⟩, Relation.ReflTransGen.refl⟩
    · have hadj : adjacent (p.1, p.2) n := ((mem_nbrsList hp n).mp (by exact hn)).2
      have hne : n ≠ p := by
        have := adjacent_ne hadj
        intro he
        rw [he] at this
        exact this rfl
      have hgz : g.cell n.1 n.2 = 0 := by
        rw [markF_cell_of_not_mem (by simp [hne])] at hnz
        exact hnz
      have hinb2 : inb g n := hninb
      refine ⟨by exact hqg, Relation.ReflTransGen.head ⟨hinb2, hgz, ?_⟩ (reach_mono_mark hr)⟩
      exact hadj

/-- Flood filling a list of in-bounds seeds marks exactly the union of
their components and returns its total size.  The hypothesis `hT` is the
single-seed correctness at the same fuel, supplied by the fuel induction
in `grsF_correct`. -/
theorem grsList_correct (fuel : ℕ)
    (hT : ∀ (b : Grid) (p : ℕ × ℕ), (zerosF b).card < fuel → inb b p →
      grsF fuel b p.1 p.2 = (markF b (comp0 b p), (comp0 b p).card)) :
    ∀ (seeds : List (ℕ × ℕ)) (b : Grid), (zerosF b).card < fuel →
      (∀ s ∈ seeds, inb b s) →
      grsList fuel b seeds = (markF b (compU b seeds), (compU b seeds).card) := by
  intro seeds
  induction seeds with
  | nil =>
    intro b hcard hseeds
    simp [grsList, compU, markF_empty]
  | cons s rest ih =>
    intro b hcard hseeds
    have hs : inb b s := hseeds s (List.mem_cons_self s rest)
    have h1 : grsF fuel b s.1 s.2 = (markF b (comp0 b s), (comp0 b s).card) :=
      hT b s hcard hs
    have hKsub : comp0 b s ⊆ zerosF b := comp0_subset_zerosF b s
    have hKcl : closedZ b (comp0 b s) := comp0_closedZ b s
    have hcard' : (zerosF (markF b (comp0 b s))).card < fuel := by
      rw [zerosF_markF]
      have hle : (zerosF b \ comp0 b s).card ≤ (zerosF b).card :=
        Finset.card_le_card Finset.sdiff_subset
      omega
    have hseeds' : ∀ t ∈ rest, inb (markF b (comp0 b s)) t := by
      intro t ht
      exact hseeds t (List.mem_cons_of_mem _ ht)
    have h2 := ih (markF b (comp0 b s)) hcard' hseeds'
    have hcompU : compU (markF b (comp0 b s)) rest = compU b rest \ comp0 b s :=
      compU_markF_eq hKcl hKsub rest
    have hcards : (comp0 b s).card + (compU b rest \ comp0 b s).card
        = (comp0 b s ∪ compU b rest).card := by
      have haux := Finset.card_sdiff_add_card (compU b rest) (comp0 b s)
      rw [Finset.union_comm] at haux
      omega
    show grsList fuel b (s :: rest) = _
    simp only [grsList, h1, h2, hcompU]
    rw [markF_markF, Finset.union_sdiff_self_eq_union]
    have hcu : compU b (s :: rest) = comp0 b s ∪ compU b rest := rfl
    rw [hcu]
    exact Prod.ext rfl (by omega)

/-- Flood-fill correctness: with fuel exceeding the number of empty cells,
`grsF` started at an in-bounds cell marks exactly the connected component
of the cell (empty means its empty component, occupied means nothing) and
returns its size. -/
theorem grsF_correct : ∀ (fuel : ℕ) (b : Grid) (p : ℕ × ℕ),
    (zerosF b).card < fuel → inb b p →
    grsF fuel b p.1 p.2 = (markF b (comp0 b p), (comp0 b p).card) := by
  intro fuel
  induction fuel with
  | zero =>
    intro b p hcard hp
    omega
  | succ fuel ih =>
    intro b p hcard hp
    by_cases hz : b.cell p.1 p.2 = 0
    · have hmem : p ∈ zerosF b :=
        Finset.mem_filter.mpr ⟨gridF_mem.mpr ⟨hp.1, hp.2⟩, hz⟩
      have hpos : 1 ≤ (zerosF b).card := Finset.card_pos.mpr ⟨p, hmem⟩
      have hb0card : (zerosF (markF b {p})).card = (zerosF b).card - 1 := by
        rw [zerosF_markF, Finset.card_sdiff (Finset.singleton_subset_iff.mpr hmem),
          Finset.card_singleton]
      have hseeds : ∀ s ∈ nbrsList b p.1 p.2, inb (markF b {p}) s := by
        intro s hsmem
        exact ((mem_nbrsList hp s).mp hsmem).1
      have hlist := grsList_correct fuel ih (nbrsList b p.1 p.2) (markF b {p})
        (by omega) hseeds
      have hbridge := grsF_succ_zero fuel b p.1 p.2 hz
      have hpq : ({((p.1 : ℕ), (p.2 : ℕ))} : Finset (ℕ × ℕ)) = {p} := by
        simp
      rw [hpq] at hbridge
      rw [hbridge, hlist]
      have hdecomp : comp b p = insert p (compU (markF b {p}) (nbrsList b p.1 p.2)) :=
        comp_decomp hp hz
      have hnotmem : p ∉ compU (markF b {p}) (nbrsList b p.1 p.2) := by
        intro hmem2
        have := compU_subset_zerosF (markF b {p}) (nbrsList b p.1 p.2) hmem2
        rw [zerosF_markF] at this
        exact (Finset.mem_sdiff.mp this).2 (Finset.mem_singleton_self p)
      have hcomp0 : comp0 b p = comp b p := by
        rw [comp0, if_pos ⟨hp, hz⟩]
      rw [hcomp0, hdecomp]
      refine Prod.ext ?_ ?_
      · show markF (markF b {p}) (compU (markF b {p}) (nbrsList b p.1 p.2)) =
          markF b (insert p (compU (markF b {p}) (nbrsList b p.1 p.2)))
        rw [markF_markF, Finset.insert_eq]
      · show 1 + (compU (markF b {p}) (nbrsList b p.1 p.2)).card =
          (insert p (compU (markF b {p}) (nbrsList b p.1 p.2))).card
        rw [Finset.card_insert_of_not_mem hnotmem]
        omega
    · have hcomp0 : comp0 b p = ∅ := by
        rw [comp0, if_neg]
        rintro ⟨_, hz2⟩
        exact hz hz2
      rw [hcomp0, markF_empty]
      show grsF (fuel + 1) b p.1 p.2 = (b, 0)
      simp [grsF, hz]

/-- The boards passed to `get_region_size` always have fewer empty cells
than `rows * cols + 1`, so the chosen fuel is ample. -/
theorem zerosF_card_le (b : Grid) : (zerosF b).card ≤ b.rows * b.cols := by
  have h1 : zerosF b ⊆ gridF b := Finset.filter_subset _ _
  have h2 : (gridF b).card = b.rows * b.cols := by
    simp [gridF]
  have := Finset.card_le_card h1
  omega

/-- Source-level flood-fill correctness: `get_region_size` on an in-bounds
cell marks the cell's empty component and returns its size. -/
theorem get_region_size_correct (b : Grid) (p : ℕ × ℕ) (hp : inb b p) :
    get_region_size b p.1 p.2 = (markF b (comp0 b p), (comp0 b p).card) := by
  apply grsF_correct
  · have := zerosF_card_le b
    omega
  · exact hp

theorem mem_allCells {g : Grid} (q : ℕ × ℕ) : q ∈ allCells g ↔ inb g q := by
  obtain ⟨a, c⟩ := q
  simp only [allCells, List.mem_flatMap, List.mem_map, List.mem_range, inb,
    Prod.mk.injEq]
  constructor
  · rintro ⟨r, hr, c2, hc2, rfl, rfl⟩
    exact ⟨hr, hc2⟩
  · rintro ⟨ha, hc⟩
    exact ⟨a, ha, c, hc, rfl, rfl⟩

/-- Invariant of the `fails` scan: if the already-scanned cells are exactly
covered by occupied cells and an already-flooded union `M` of components
all of size at least 4, then the remaining scan finds a verdict `true`
exactly when the original board has an empty component smaller than 4. -/
theorem failsLoop_iff (g : Grid) :
    ∀ (rest : List (ℕ × ℕ)) (M : Finset (ℕ × ℕ)),
      M ⊆ zerosF g → closedZ g M →
      (∀ x ∈ M, 4 ≤ (comp g x).card) →
      (∀ s ∈ rest, inb g s) →
      (∀ q, inb g q → q ∉ rest → (q ∈ M ∨ g.cell q.1 q.2 ≠ 0)) →
      ((failsLoop (markF g M) rest).1 = true ↔
        ∃ x, inb g x ∧ g.cell x.1 x.2 = 0 ∧ (comp g x).card < 4) := by
  intro rest
  induction rest with
  | nil =>
    intro M hMz hMcl hMbig hinb hscan
    simp only [failsLoop]
    constructor
    · intro h
      exact absurd h (by simp)
    · rintro ⟨x, hxin, hxz, hxcard⟩
      rcases hscan x hxin (List.not_mem_nil x) with hxM | hnz
      · have := hMbig x hxM
        omega
      · exact absurd hxz hnz
  | cons s rest ih =>
    intro M hMz hMcl hMbig hinb hscan
    have hs : inb g s := hinb s (List.mem_cons_self s rest)
    by_cases hcell : (markF g M).cell s.1 s.2 = 0
    · have hsM : s ∉ M := by
        intro hsM
        rw [markF_cell_of_mem hsM] at hcell
        norm_num at hcell
      have hgz : g.cell s.1 s.2 = 0 := by
        rwa [markF_cell_of_not_mem hsM] at hcell
      have hgrs := get_region_size_correct (markF g M) s (by exact hs)
      have hstable : comp (markF g M) s = comp g s := comp_markF_stable hMcl hsM hs hgz
      have hcomp0 : comp0 (markF g M) s = comp g s := by
        rw [comp0, if_pos ⟨(by exact hs : inb (markF g M) s), hcell⟩, hstable]
      rw [hcomp0] at hgrs
      simp only [failsLoop, hcell, if_pos, if_true, hgrs]
      by_cases hsmall : (comp g s).card < 4
      · simp only [if_pos hsmall]
        simp only [true_iff]
        exact ⟨s, hs, hgz, hsmall⟩
      · simp only [if_neg hsmall]
        have hKz : comp g s ⊆ zerosF g := comp_subset_zerosF hs hgz
        have hstep : markF (markF g M) (comp g s) = markF g (M ∪ comp g s) :=
          markF_markF g M (comp g s)
        rw [hstep]
        apply ih (M ∪ comp g s)
        · exact Finset.union_subset hMz hKz
        · exact closedZ_union hMcl (comp_closedZ g s)
        · intro x hx
          rcases Finset.mem_union.mp hx with hx | hx
          · exact hMbig x hx
          · rw [comp_eq_of_mem hs hgz hx]
            omega
        · intro t ht
          exact hinb t (List.mem_cons_of_mem _ ht)
        · intro q hq hqrest
          by_cases hqs : q = s
          · subst hqs
            left
            exact Finset.mem_union_right _ (comp_self_mem hs)
          · rcases hscan q hq (by simp [List.mem_cons, hqs, hqrest]) with hqM | hnz
            · exact Or.inl (Finset.mem_union_left _ hqM)
            · exact Or.inr hnz
    · simp only [failsLoop, hcell, if_neg, if_false]
      apply ih M hMz hMcl hMbig
      · intro t ht
        exact hinb t (List.mem_cons_of_mem _ ht)
      · intro q hq hqrest
        by_cases hqs : q = s
        · subst hqs
          by_cases hqM : q ∈ M
          · exact Or.inl hqM
          · right
            rw [markF_cell_of_not_mem hqM] at hcell
            exact hcell
        · exact hscan q hq (by simp [List.mem_cons, hqs, hqrest])

/-- The test `fails` returns true exactly when some maximal 4-connected component of
empty cells has fewer than 4 cells. -/
theorem failsG_iff (g : Grid) :
    failsG g = true ↔ ∃ x, inb g x ∧ g.cell x.1 x.2 = 0 ∧ (comp g x).card < 4 := by
  have h := failsLoop_iff g (allCells g) ∅ (Finset.empty_subset _) (closedZ_empty g)
    (by intro x hx; exact absurd hx (Finset.not_mem_empty x))
    (by intro s hsmem; exact (mem_allCells s).mp hsmem)
    (by
      intro q hq hqmem
      exact absurd ((mem_allCells q).mpr hq) hqmem)
  rw [markF_empty] at h
  exact h

theorem demoRow_closed : closedZ demoB demoRow := by
  intro p hp y hy
  obtain ⟨a, c⟩ := y
  rcases hy with ⟨⟨ha, hc⟩, hz, _⟩
  have ha2 : a < 2 := ha
  have hc2 : c < 3 := hc
  interval_cases a <;> interval_cases c <;>
    first
    | exact absurd hz (by decide)
    | decide

theorem demo_step01 : zstep demoB (0, 0) (0, 1) :=
  ⟨⟨by decide, by decide⟩, by decide, Or.inl ⟨rfl, Or.inl rfl⟩⟩

theorem demo_step12 : zstep demoB (0, 1) (0, 2) :=
  ⟨⟨by decide, by decide⟩, by decide, Or.inl ⟨rfl, Or.inl rfl⟩⟩

theorem comp_demoB_00 : comp demoB (0, 0) = demoRow := by
  apply Finset.Subset.antisymm
  · exact comp_subset_of_closed demoRow_closed (by decide)
  · intro q hq
    have : q = (0, 0) ∨ q = (0, 1) ∨ q = (0, 2) := by
      simpa [demoRow, Finset.mem_insert, Finset.mem_singleton] using hq
    rcases this with rfl | rfl | rfl
    · exact mem_comp.mpr ⟨⟨by decide, by decide⟩, Relation.ReflTransGen.refl⟩
    · exact mem_comp.mpr ⟨⟨by decide, by decide⟩,
        Relation.ReflTransGen.single demo_step01⟩
    · exact mem_comp.mpr ⟨⟨by decide, by decide⟩,
        (Relation.ReflTransGen.single demo_step01).tail demo_step12⟩

theorem comp_demoB_eq (x : ℕ × ℕ) (hxin : inb demoB x) (hxz : demoB.cell x.1 x.2 = 0) :
    comp demoB x = demoRow := by
  have hx : x ∈ comp demoB (0, 0) := by
    rw [comp_demoB_00]
    obtain ⟨a, c⟩ := x
    have ha2 : a < 2 := hxin.1
    have hc2 : c < 3 := hxin.2
    interval_cases a <;> interval_cases c <;>
      first
      | exact absurd hxz (by decide)
      | decide
  rw [comp_eq_of_mem ⟨by decide, by decide⟩ (by decide) hx, comp_demoB_00]

/-- C2 (amended). `fails` returns true iff some maximal 4-connected
component of empty cells has fewer than 4 cells.  The threshold 4 is the
hardcoded literal of the source, and it coincides with the smallest
cell count among the orientations of the shipped game catalog; for an
all-occupied board `fails` returns false. -/
theorem fails_iff_dead_region (g : Grid) :
    (failsG g = true ↔
      ∃ x, inb g x ∧ g.cell x.1 x.2 = 0 ∧
        (comp g x).card < minPlaceable gameCatalog) ∧
    minPlaceable gameCatalog = 4 ∧
    ((∀ r, r < g.rows → ∀ c, c < g.cols → g.cell r c ≠ 0) → failsG g = false) := by
  have hmin : minPlaceable gameCatalog = 4 := by decide
  refine ⟨by rw [hmin]; exact failsG_iff g, hmin, ?_⟩
  intro hocc
  by_contra hne
  have htrue : failsG g = true := by
    cases hfg : failsG g
    · exact absurd hfg hne
    · rfl
  rcases (failsG_iff g).mp htrue with ⟨x, hxin, hxz, _⟩
  exact hocc x.1 hxin.1 x.2 hxin.2 hxz

theorem fails_iff_dead_region_witness :
    failsG fullBoard = false :=
  (fails_iff_dead_region fullBoard).2.2 (by decide)

/-- C2 (counterexample to the claim as stated).  The claim ties the
threshold of `fails` to the minimum orientation size of the active
catalog.  For the active catalog `cat3` (minimum placeable size 3) and the
board `demoB`, whose only empty component has exactly 3 cells, `fails`
returns true although no component is smaller than the catalog minimum:
the source hardcodes the literal 4. -/
theorem fails_not_catalog_min :
    ¬(failsG demoB = true ↔
      ∃ x, inb demoB x ∧ demoB.cell x.1 x.2 = 0 ∧
        (comp demoB x).card < minPlaceable cat3) := by
  intro h
  have htrue : failsG demoB = true := by decide
  rcases h.mp htrue with ⟨x, hxin, hxz, hcard⟩
  rw [comp_demoB_eq x hxin hxz] at hcard
  have h3 : demoRow.card = 3 := by decide
  have hmp : minPlaceable cat3 = 3 := by decide
  omega

/-- C10. The flood-fill recursion terminates within the cell-count bound:
any fuel exceeding the number of empty cells computes exactly
`get_region_size`, and on an empty in-bounds start cell the number of
empty cells strictly decreases across the call. -/
theorem grsF_fuel_stable (g : Grid) (r c fuel : ℕ)
    (hr : r < g.rows) (hc : c < g.cols) (hfuel : (zerosF g).card < fuel) :
    grsF fuel g r c = get_region_size g r c ∧
      (g.cell r c = 0 →
        (zerosF (get_region_size g r c).1).card < (zerosF g).card) := by
  have h1 := grsF_correct fuel g (r, c) hfuel ⟨hr, hc⟩
  have h2 := get_region_size_correct g (r, c) ⟨hr, hc⟩
  constructor
  · exact h1.trans h2.symm
  · intro hz
    rw [h2]
    have hK : comp0 g (r, c) = comp g (r, c) := by
      rw [comp0, if_pos ⟨⟨hr, hc⟩, hz⟩]
    show (zerosF (markF g (comp0 g (r, c)))).card < (zerosF g).card
    rw [zerosF_markF, hK]
    have hsub : comp g (r, c) ⊆ zerosF g := comp_subset_zerosF ⟨hr, hc⟩ hz
    have hmem : (r, c) ∈ comp g (r, c) := comp_self_mem ⟨hr, hc⟩
    have hpos : 1 ≤ (comp g (r, c)).card := Finset.card_pos.mpr ⟨(r, c), hmem⟩
    have hle : (comp g (r, c)).card ≤ (zerosF g).card := Finset.card_le_card hsub
    rw [Finset.card_sdiff hsub]
    omega

theorem grsF_fuel_stable_witness :
    grsF 9 demoB 0 0 = get_region_size demoB 0 0 ∧
      (demoB.cell 0 0 = 0 →
        (zerosF (get_region_size demoB 0 0).1).card < (zerosF demoB).card) :=
  grsF_fuel_stable demoB 0 0 9 (by decide) (by decide) (by decide)

theorem grsF_step_mono (fuel : ℕ)
    (ih : ∀ (b : Grid) (r c qa qc : ℕ), b.cell qa qc ≠ 0 →
      ((grsF fuel b r c).1).cell qa qc ≠ 0)
    (x : Grid) (cond : Prop) [Decidable cond] (r2 c2 qa qc : ℕ)
    (hx : x.cell qa qc ≠ 0) :
    ((if cond then grsF fuel x r2 c2 else (x, 0)).1).cell qa qc ≠ 0 := by
  split
  · exact ih x r2 c2 qa qc hx
  · exact hx

/-- The flood fill only writes the nonzero sentinel: occupied cells stay
occupied. -/
theorem grsF_mono : ∀ (fuel : ℕ) (b : Grid) (r c qa qc : ℕ),
    b.cell qa qc ≠ 0 → ((grsF fuel b r c).1).cell qa qc ≠ 0 := by
  intro fuel
  induction fuel with
  | zero =>
    intro b r c qa qc h
    exact h
  | succ fuel ih =>
    intro b r c qa qc h
    by_cases hz : b.cell r c = 0
    · simp only [grsF, if_pos hz]
      have h0 : (⟨b.rows, b.cols,
          fun i j => if i = r ∧ j = c then 3 else b.cell i j⟩ : Grid).cell qa qc ≠ 0 := by
        dsimp only
        split
        · norm_num
        · exact h
      exact grsF_step_mono fuel ih _ _ _ _ _ _
        (grsF_step_mono fuel ih _ _ _ _ _ _
          (grsF_step_mono fuel ih _ _ _ _ _ _
            (grsF_step_mono fuel ih _ _ _ _ _ _ h0)))
    · simp only [grsF, if_neg hz]
      exact h

/-- The flood fill marks its start cell when that cell is empty. -/
theorem grsF_marks_start (fuel : ℕ) (b : Grid) (r c : ℕ) (hz : b.cell r c = 0) :
    ((grsF (fuel + 1) b r c).1).cell r c ≠ 0 := by
  simp only [grsF, if_pos hz]
  have h0 : (⟨b.rows, b.cols,
      fun i j => if i = r ∧ j = c then 3 else b.cell i j⟩ : Grid).cell r c ≠ 0 := by
    dsimp only
    rw [if_pos ⟨rfl, rfl⟩]
    norm_num
  exact grsF_step_mono fuel (fun b2 r2 c2 qa qc h => grsF_mono fuel b2 r2 c2 qa qc h) _ _ _ _ _ _
    (grsF_step_mono fuel (fun b2 r2 c2 qa qc h => grsF_mono fuel b2 r2 c2 qa qc h) _ _ _ _ _ _
      (grsF_step_mono fuel (fun b2 r2 c2 qa qc h => grsF_mono fuel b2 r2 c2 qa qc h) _ _ _ _ _ _
        (grsF_step_mono fuel (fun b2 r2 c2 qa qc h => grsF_mono fuel b2 r2 c2 qa qc h) _ _ _ _ _ _ h0)))

/-- The `fails` scan only writes the sentinel into its working board. -/
theorem failsLoop_mono : ∀ (cells : List (ℕ × ℕ)) (b : Grid) (qa qc : ℕ),
    b.cell qa qc ≠ 0 → ((failsLoop b cells).2).cell qa qc ≠ 0 := by
  intro cells
  induction cells with
  | nil =>
    intro b qa qc h
    exact h
  | cons p rest ih =>
    intro b qa qc h
    by_cases hz : b.cell p.1 p.2 = 0
    · simp only [failsLoop, if_pos hz]
      split
      · exact grsF_mono _ b p.1 p.2 qa qc h
      · exact ih _ qa qc (grsF_mono _ b p.1 p.2 qa qc h)
    · simp only [failsLoop, if_neg hz]
      exact ih b qa qc h

/-- If the scan sees any empty cell, its working board ends with at least
one formerly-empty cell overwritten by the sentinel. -/
theorem failsLoop_marks : ∀ (cells : List (ℕ × ℕ)) (b : Grid),
    (∃ p ∈ cells, b.cell p.1 p.2 = 0) →
    ∃ qa qc, b.cell qa qc = 0 ∧ ((failsLoop b cells).2).cell qa qc ≠ 0 := by
  intro cells
  induction cells with
  | nil =>
    rintro b ⟨p, hp, _⟩
    exact absurd hp (List.not_mem_nil p)
  | cons p rest ih =>
    intro b hex
    by_cases hz : b.cell p.1 p.2 = 0
    · refine ⟨p.1, p.2, hz, ?_⟩
      simp only [failsLoop, if_pos hz]
      split
      · exact grsF_marks_start _ b p.1 p.2 hz
      · exact failsLoop_mono rest _ p.1 p.2 (grsF_marks_start _ b p.1 p.2 hz)
    · simp only [failsLoop, if_neg hz]
      apply ih
      rcases hex with ⟨p2, hp2mem, hp2z⟩
      rcases List.mem_cons.mp hp2mem with rfl | hp2r
      · exact absurd hp2z hz
      · exact ⟨p2, hp2r, hp2z⟩

/-- C7. `fails` never modifies the caller's board: the board handed back
to the caller is the argument itself (the source scans a `np.copy`), even
though the flood fill genuinely overwrites empty cells of its internal
working copy with the sentinel whenever the board has any empty cell. -/
theorem fails_preserves_caller (g : Grid) :
    (failsST g).2 = g ∧
      (∀ r c, r < g.rows → c < g.cols → g.cell r c = 0 →
        ∃ qa qc, g.cell qa qc = 0 ∧
          ((failsLoop g (allCells g)).2).cell qa qc ≠ 0) := by
  refine ⟨rfl, ?_⟩
  intro r c hr hc hz
  apply failsLoop_marks
  exact ⟨(r, c), (mem_allCells (r, c)).mpr ⟨hr, hc⟩, hz⟩

theorem fails_preserves_caller_witness :
    (failsST demoB).2 = demoB ∧
      ∃ qa qc, demoB.cell qa qc = 0 ∧
        ((failsLoop demoB (allCells demoB)).2).cell qa qc ≠ 0 :=
  ⟨(fails_preserves_caller demoB).1,
    (fails_preserves_caller demoB).2 0 0 (by decide) (by decide) (by decide)⟩

theorem countNonzero_rot90 (g : Grid) : countNonzero (rot90 g) = countNonzero g := by
  unfold countNonzero
  apply Finset.card_bij (fun q _ => (q.2, g.cols - 1 - q.1))
  · rintro ⟨a, c⟩ ha
    rcases Finset.mem_filter.mp ha with ⟨hg, hnz⟩
    rcases gridF_mem.mp hg with ⟨h1, h2⟩
    have h1c : a < g.cols := h1
    have h2r : c < g.rows := h2
    refine Finset.mem_filter.mpr ⟨gridF_mem.mpr ⟨h2r, by omega⟩, ?_⟩
    exact hnz
  · rintro ⟨a, c⟩ ha ⟨a2, c2⟩ ha2 heq
    rcases gridF_mem.mp (Finset.mem_filter.mp ha).1 with ⟨h1, _⟩
    rcases gridF_mem.mp (Finset.mem_filter.mp ha2).1 with ⟨h12, _⟩
    have h1c : a < g.cols := h1
    have h12c : a2 < g.cols := h12
    simp only [Prod.mk.injEq] at heq
    exact Prod.ext (by omega) (by omega)
  · rintro ⟨x, y⟩ hxy
    rcases Finset.mem_filter.mp hxy with ⟨hg, hnz⟩
    rcases gridF_mem.mp hg with ⟨h1, h2⟩
    have hx : x < g.rows := h1
    have hy : y < g.cols := h2
    refine ⟨(g.cols - 1 - y, x), Finset.mem_filter.mpr
      ⟨gridF_mem.mpr ⟨by show g.cols - 1 - y < g.cols; omega,
        by show x < g.rows; exact hx⟩, ?_⟩, ?_⟩
    · show g.cell x (g.cols - 1 - (g.cols - 1 - y)) ≠ 0
      have hyy : g.cols - 1 - (g.cols - 1 - y) = y := by omega
      rw [hyy]
      exact hnz
    · simp only [Prod.mk.injEq]
      exact ⟨by trivial, by omega⟩

theorem countNonzero_rotIter (k : ℕ) (g : Grid) :
    countNonzero (rotIter k g) = countNonzero g := by
  induction k generalizing g with
  | zero => rfl
  | succ k ih =>
    show countNonzero (rotIter k (rot90 g)) = countNonzero g
    rw [ih (rot90 g), countNonzero_rot90]

/-- On a board with at most one empty cell, no piece orientation with at
least two nonzero cells can fit anywhere. -/
theorem fits_false_of_small (b p : Grid) (row col : ℕ)
    (hb : (zerosF b).card ≤ 1) (hp : 2 ≤ countNonzero p)
    (h1 : row + p.rows ≤ b.rows) (h2 : col + p.cols ≤ b.cols) :
    fits (sliceG b row col p.rows p.cols) p = false := by
  by_contra hcon
  have htrue : fits (sliceG b row col p.rows p.cols) p = true := by
    rcases Bool.eq_false_or_eq_true (fits (sliceG b row col p.rows p.cols) p) with ht | hf
    · exact ht
    · exact absurd hf hcon
  have hdisj := (fits_iff_disjoint (sliceG b row col p.rows p.cols) p rfl rfl).mp htrue
  simp only [sliceG] at hdisj
  have hBsub : (gridF p).filter (fun q => p.cell q.1 q.2 ≠ 0) ⊆
      zerosF (sliceG b row col p.rows p.cols) := by
    intro q hq
    rcases Finset.mem_filter.mp hq with ⟨hqg, hqnz⟩
    rcases gridF_mem.mp hqg with ⟨hq1, hq2⟩
    have hcell := hdisj q.1 q.2 hq1 hq2
    have hbz : b.cell (row + q.1) (col + q.2) = 0 := by
      by_contra hbz
      exact hcell ⟨hbz, hqnz⟩
    refine Finset.mem_filter.mpr ⟨gridF_mem.mpr ⟨hq1, hq2⟩, ?_⟩
    exact hbz
  have hinj : (zerosF (sliceG b row col p.rows p.cols)).card ≤ (zerosF b).card := by
    apply Finset.card_le_card_of_injOn (fun q => (row + q.1, col + q.2))
    · intro q hq
      rcases Finset.mem_filter.mp hq with ⟨hqg, hqz⟩
      rcases gridF_mem.mp hqg with ⟨hq1, hq2⟩
      have hq1b : q.1 < p.rows := hq1
      have hq2b : q.2 < p.cols := hq2
      refine Finset.mem_filter.mpr ⟨gridF_mem.mpr ⟨by omega, by omega⟩, ?_⟩
      exact hqz
    · intro x _ y _ hxy
      simp only [Prod.mk.injEq] at hxy
      exact Prod.ext (by omega) (by omega)
  have hBcard := Finset.card_le_card hBsub
  have hcount : countNonzero p = ((gridF p).filter (fun q => p.cell q.1 q.2 ≠ 0)).card := rfl
  omega

theorem mem_positionsList {b p : Grid} {rc : ℕ × ℕ} (h : rc ∈ positionsList b p) :
    rc.1 + p.rows ≤ b.rows ∧ rc.2 + p.cols ≤ b.cols := by
  obtain ⟨r, c⟩ := rc
  simp only [positionsList, List.mem_flatMap, List.mem_map, List.mem_range,
    Prod.mk.injEq] at h
  obtain ⟨r2, hr2, c2, hc2, he1, he2⟩ := h
  subst he1
  subst he2
  constructor
  · omega
  · omega

theorem loopPositions_all_unfit (recur : Grid → Option ℕ) (b p : Grid) :
    ∀ l : List (ℕ × ℕ),
      (∀ rc ∈ l, fits (sliceG b rc.1 rc.2 p.rows p.cols) p = false) →
      loopPositions recur b p l = some 0 := by
  intro l
  induction l with
  | nil =>
    intro _
    rfl
  | cons rc rest ih =>
    intro h
    obtain ⟨row, col⟩ := rc
    have hfit := h (row, col) (List.mem_cons_self _ _)
    simp only [loopPositions, hfit, Bool.false_eq_true, if_false]
    exact ih (fun rc2 hrc2 => h rc2 (List.mem_cons_of_mem _ hrc2))

theorem loopRots_all_unfit (recur : Grid → Option ℕ) (b : Grid)
    (hb : (zerosF b).card ≤ 1) :
    ∀ (k : ℕ) (p : Grid), 2 ≤ countNonzero p → loopRots recur b p k = some 0 := by
  intro k
  induction k with
  | zero =>
    intro p _
    rfl
  | succ k ih =>
    intro p hp
    have hpos : loopPositions recur b p (positionsList b p) = some 0 := by
      apply loopPositions_all_unfit
      intro rc hrc
      have hbound := mem_positionsList hrc
      exact fits_false_of_small b p rc.1 rc.2 hb hp hbound.1 hbound.2
    have hrot : loopRots recur b (rot90 p) k = some 0 :=
      ih (rot90 p) (by rw [countNonzero_rot90]; exact hp)
    simp only [loopRots, hpos, hrot]

theorem loopOrients_all_unfit (recur : Grid → Option ℕ) (b : Grid)
    (hb : (zerosF b).card ≤ 1) :
    ∀ l : List Grid, (∀ o ∈ l, 2 ≤ countNonzero o) →
      loopOrients recur b l = some 0 := by
  intro l
  induction l with
  | nil =>
    intro _
    rfl
  | cons o rest ih =>
    intro h
    have h1 : loopRots recur b o 4 = some 0 :=
      loopRots_all_unfit recur b hb 4 o (h o (List.mem_cons_self _ _))
    have h2 : loopOrients recur b rest = some 0 :=
      ih (fun o2 ho2 => h o2 (List.mem_cons_of_mem _ ho2))
    simp only [loopOrients, h1, h2]

theorem solveF_succ_all_unfit (fuel : ℕ) (g : Grid) (pieces : List (List Grid))
    (depth : ℕ) (os : List Grid)
    (hterm : ¬(depth = pieces.length ∧ countNonzero g = 50))
    (horients : pieces[depth]? = some os)
    (hb : (zerosF g).card ≤ 1)
    (hos : ∀ o ∈ os, 2 ≤ countNonzero o) :
    solveF (fuel + 1) g pieces depth = some 0 := by
  simp only [solveF, if_neg hterm, horients]
  exact loopOrients_all_unfit _ g hb os hos

/-- C5. On a 5 by 10 board with a single isolated empty cell, `fails`
reports a dead region, and `solve` on the game catalog returns a count of
0: the fit test rejects every candidate placement, so the search never
expands a placement. -/
theorem isolated_cell_prunes (g : Grid)
    (hr : g.rows = 5) (hc : g.cols = 10) (hone : (zerosF g).card = 1) :
    failsG g = true ∧ solve g gameCatalog 0 = some 0 ∧
      ∀ po ∈ gameCatalog, ∀ o ∈ po, ∀ (k row col : ℕ),
        (row, col) ∈ positionsList g (rotIter k o) →
        fits (sliceG g row col (rotIter k o).rows (rotIter k o).cols)
          (rotIter k o) = false := by
  have hcat : ∀ po ∈ gameCatalog, ∀ o ∈ po, 2 ≤ countNonzero o := by decide
  obtain ⟨x, hx⟩ := Finset.card_eq_one.mp hone
  have hxmem : x ∈ zerosF g := by
    rw [hx]
    exact Finset.mem_singleton_self x
  rcases Finset.mem_filter.mp hxmem with ⟨hxg, hxz⟩
  have hxin : inb g x := ⟨(gridF_mem.mp hxg).1, (gridF_mem.mp hxg).2⟩
  refine ⟨?_, ?_, ?_⟩
  · apply (failsG_iff g).mpr
    refine ⟨x, hxin, hxz, ?_⟩
    have hsub : comp g x ⊆ zerosF g := comp_subset_zerosF hxin hxz
    have := Finset.card_le_card hsub
    omega
  · have hlen : gameCatalog.length + 1 - 0 = gameCatalog.length + 1 := by omega
    show solveF (gameCatalog.length + 1 - 0) g gameCatalog 0 = some 0
    rw [hlen]
    apply solveF_succ_all_unfit
    · rintro ⟨h0, _⟩
      have : gameCatalog.length = 10 := by decide
      omega
    · rfl
    · omega
    · exact hcat piece1 (by simp [gameCatalog])
  · intro po hpo o ho k row col hmem
    have hbound := mem_positionsList hmem
    apply fits_false_of_small
    · omega
    · rw [countNonzero_rotIter]
      exact hcat po hpo o ho
    · exact hbound.1
    · exact hbound.2

theorem isolated_cell_prunes_witness :
    failsG board49 = true ∧ solve board49 gameCatalog 0 = some 0 :=
  ⟨(isolated_cell_prunes board49 (by decide) (by decide) (by decide)).1,
   (isolated_cell_prunes board49 (by decide) (by decide) (by decide)).2.1⟩

/-- Invariant of the full scan: starting from a board with a closed set
`M` of already-flooded empty cells, and with every unscanned empty cell
still to come, the scan floods exactly the components of the remaining
empty cells, pairwise disjoint, and reports their cardinalities. -/
theorem scan_inv (g : Grid) :
    ∀ (cells : List (ℕ × ℕ)) (M : Finset (ℕ × ℕ)),
      M ⊆ zerosF g → closedZ g M →
      (∀ s ∈ cells, inb g s) →
      (∀ q, inb g q → q ∉ cells → (q ∈ M ∨ g.cell q.1 q.2 ≠ 0)) →
      (∀ K ∈ scanCompsAux (markF g M) cells,
          ∃ x, inb g x ∧ g.cell x.1 x.2 = 0 ∧ x ∉ M ∧ K = comp g x) ∧
      List.Pairwise Disjoint (scanCompsAux (markF g M) cells) ∧
      (scanCompsAux (markF g M) cells).foldr (fun K acc => K ∪ acc) ∅ =
        zerosF g \ M ∧
      (fullScan (markF g M) cells).2 =
        (scanCompsAux (markF g M) cells).map Finset.card := by
  intro cells
  induction cells with
  | nil =>
    intro M hMz hMcl hinb hscan
    simp only [scanCompsAux, fullScan, List.foldr_nil, List.map_nil]
    refine ⟨by intro K hK; exact absurd hK (List.not_mem_nil K),
      List.Pairwise.nil, ?_, by trivial⟩
    symm
    rw [Finset.sdiff_eq_empty_iff_subset]
    intro q hq
    rcases Finset.mem_filter.mp hq with ⟨hqg, hqz⟩
    rcases hscan q ⟨(gridF_mem.mp hqg).1, (gridF_mem.mp hqg).2⟩
        (List.not_mem_nil q) with hqM | hnz
    · exact hqM
    · exact absurd hqz hnz
  | cons p rest ih =>
    intro M hMz hMcl hinb hscan
    have hs : inb g p := hinb p (List.mem_cons_self p rest)
    by_cases hcell : (markF g M).cell p.1 p.2 = 0
    · have hpM : p ∉ M := by
        intro hpM
        rw [markF_cell_of_mem hpM] at hcell
        norm_num at hcell
      have hgz : g.cell p.1 p.2 = 0 := by
        rwa [markF_cell_of_not_mem hpM] at hcell
      have hstable : comp (markF g M) p = comp g p := comp_markF_stable hMcl hpM hs hgz
      have hKsub : comp g p ⊆ zerosF g := comp_subset_zerosF hs hgz
      have hKM : ∀ y ∈ comp g p, y ∉ M := by
        intro y hy hyM
        have h1 : comp g y ⊆ M := comp_subset_of_closed hMcl hyM
        have h2 : comp g y = comp g p := comp_eq_of_mem hs hgz hy
        have hp2 : p ∈ comp g y := by
          rw [h2]
          exact comp_self_mem hs
        exact hpM (h1 hp2)
      have hstep : markF (markF g M) (comp (markF g M) p) = markF g (M ∪ comp g p) := by
        rw [hstable, markF_markF]
      have hscomps : scanCompsAux (markF g M) (p :: rest) =
          comp g p :: scanCompsAux (markF g (M ∪ comp g p)) rest := by
        show (if inb (markF g M) p ∧ (markF g M).cell p.1 p.2 = 0 then
            comp (markF g M) p ::
              scanCompsAux (markF (markF g M) (comp (markF g M) p)) rest
          else scanCompsAux (markF g M) rest) = _
        rw [if_pos ⟨(by exact hs : inb (markF g M) p), hcell⟩, hstable, markF_markF]
      have hgrs := get_region_size_correct (markF g M) p (by exact hs)
      have hcomp0 : comp0 (markF g M) p = comp g p := by
        rw [comp0, if_pos ⟨(by exact hs : inb (markF g M) p), hcell⟩, hstable]
      rw [hcomp0] at hgrs
      have hfscan : (fullScan (markF g M) (p :: rest)).2 =
          (comp g p).card :: (fullScan (markF g (M ∪ comp g p)) rest).2 := by
        show ((if (markF g M).cell p.1 p.2 = 0 then
            let s := get_region_size (markF g M) p.1 p.2
            let t := fullScan s.1 rest
            (t.1, s.2 :: t.2)
          else fullScan (markF g M) rest)).2 = _
        rw [if_pos hcell, hgrs]
        show (comp g p).card :: (fullScan (markF (markF g M) (comp g p)) rest).2 = _
        rw [markF_markF]
      have hsub' : M ∪ comp g p ⊆ zerosF g := Finset.union_subset hMz hKsub
      have hcl' : closedZ g (M ∪ comp g p) := closedZ_union hMcl (comp_closedZ g p)
      have hinb' : ∀ s ∈ rest, inb g s := fun t ht => hinb t (List.mem_cons_of_mem _ ht)
      have hscan' : ∀ q, inb g q → q ∉ rest → (q ∈ M ∪ comp g p ∨ g.cell q.1 q.2 ≠ 0) := by
        intro q hq hqrest
        by_cases hqp : q = p
        · subst hqp
          exact Or.inl (Finset.mem_union_right _ (comp_self_mem hs))
        · rcases hscan q hq (by simp [List.mem_cons, hqp, hqrest]) with hqM | hnz
          · exact Or.inl (Finset.mem_union_left _ hqM)
          · exact Or.inr hnz
      obtain ⟨ih1, ih2, ih3, ih4⟩ := ih (M ∪ comp g p) hsub' hcl' hinb' hscan'
      refine ⟨?_, ?_, ?_, ?_⟩
      · intro K hK
        rw [hscomps] at hK
        rcases List.mem_cons.mp hK with rfl | hK
        · exact ⟨p, hs, hgz, hpM, rfl⟩
        · obtain ⟨x, hx1, hx2, hx3, hx4⟩ := ih1 K hK
          exact ⟨x, hx1, hx2, fun hxM => hx3 (Finset.mem_union_left _ hxM), hx4⟩
      · rw [hscomps]
        rw [List.pairwise_cons]
        refine ⟨?_, ih2⟩
        intro K hK
        obtain ⟨x, hx1, hx2, hx3, rfl⟩ := ih1 K hK
        rw [Finset.disjoint_left]
        intro y hyp hyx
        have h1 : comp g y = comp g p := comp_eq_of_mem hs hgz hyp
        have h2 : comp g y = comp g x := comp_eq_of_mem hx1 hx2 hyx
        have hxp : x ∈ comp g p := by
          rw [← h1, h2]
          exact comp_self_mem hx1
        exact hx3 (Finset.mem_union_right _ hxp)
      · rw [hscomps]
        simp only [List.foldr_cons]
        rw [ih3]
        ext y
        simp only [Finset.mem_union, Finset.mem_sdiff, Finset.mem_union]
        constructor
        · rintro (hy | ⟨hyz, hyMK⟩)
          · exact ⟨hKsub hy, hKM y hy⟩
          · exact ⟨hyz, fun hyM => hyMK (Or.inl hyM)⟩
        · rintro ⟨hyz, hyM⟩
          by_cases hyK : y ∈ comp g p
          · exact Or.inl hyK
          · exact Or.inr ⟨hyz, fun hc => by
              rcases hc with hc | hc
              · exact hyM hc
              · exact hyK hc⟩
      · rw [hscomps, hfscan, List.map_cons, ih4]
    · have hscomps : scanCompsAux (markF g M) (p :: rest) =
          scanCompsAux (markF g M) rest := by
        show (if inb (markF g M) p ∧ (markF g M).cell p.1 p.2 = 0 then
            comp (markF g M) p ::
              scanCompsAux (markF (markF g M) (comp (markF g M) p)) rest
          else scanCompsAux (markF g M) rest) = _
        rw [if_neg]
        rintro ⟨_, hz⟩
        exact hcell hz
      have hfscan : fullScan (markF g M) (p :: rest) = fullScan (markF g M) rest := by
        show (if (markF g M).cell p.1 p.2 = 0 then _ else fullScan (markF g M) rest) = _
        rw [if_neg hcell]
      rw [hscomps, hfscan]
      apply ih M hMz hMcl
      · intro t ht
        exact hinb t (List.mem_cons_of_mem _ ht)
      · intro q hq hqrest
        by_cases hqp : q = p
        · subst hqp
          by_cases hqM : q ∈ M
          · exact Or.inl hqM
          · right
            rw [markF_cell_of_not_mem hqM] at hcell
            exact hcell
        · exact hscan q hq (by simp [List.mem_cons, hqp, hqrest])

theorem disjoint_foldr_union (K : Finset (ℕ × ℕ)) :
    ∀ L : List (Finset (ℕ × ℕ)), (∀ X ∈ L, Disjoint K X) →
      Disjoint K (L.foldr (fun X acc => X ∪ acc) ∅) := by
  intro L
  induction L with
  | nil =>
    intro _
    simp
  | cons X rest ih =>
    intro h
    simp only [List.foldr_cons]
    rw [Finset.disjoint_union_right]
    exact ⟨h X (List.mem_cons_self _ _), ih (fun Y hY => h Y (List.mem_cons_of_mem _ hY))⟩

theorem sum_card_of_pairwise_disjoint :
    ∀ L : List (Finset (ℕ × ℕ)), List.Pairwise Disjoint L →
      (L.map Finset.card).sum = (L.foldr (fun K acc => K ∪ acc) ∅).card := by
  intro L
  induction L with
  | nil => simp
  | cons K rest ih =>
    intro hpw
    rcases List.pairwise_cons.mp hpw with ⟨hK, hrest⟩
    simp only [List.map_cons, List.sum_cons, List.foldr_cons]
    rw [ih hrest, Finset.card_union_of_disjoint (disjoint_foldr_union K rest hK)]

/-- C8 (amended). The flood-fill region sizes computed by the complete
scan (the scan of `fails` without its early exit) partition the
empty-cell set exactly: the successive calls flood pairwise-disjoint
components whose union is the whole empty-cell set (so every empty cell
is counted in exactly one region), the reported sizes are the component
cardinalities, and their sum is the total empty-cell count. -/
theorem scan_partitions (g : Grid) :
    ((fullScan g (allCells g)).2).sum = (zerosF g).card ∧
    List.Pairwise Disjoint (scanCompsAux g (allCells g)) ∧
    (scanCompsAux g (allCells g)).foldr (fun K acc => K ∪ acc) ∅ = zerosF g ∧
    (fullScan g (allCells g)).2 = (scanCompsAux g (allCells g)).map Finset.card := by
  have h := scan_inv g (allCells g) ∅ (Finset.empty_subset _) (closedZ_empty g)
    (fun s hsmem => (mem_allCells s).mp hsmem)
    (fun q hq hqmem => absurd ((mem_allCells q).mpr hq) hqmem)
  rw [markF_empty, Finset.sdiff_empty] at h
  obtain ⟨_, h2, h3, h4⟩ := h
  refine ⟨?_, h2, h3, h4⟩
  rw [h4, sum_card_of_pairwise_disjoint _ h2, h3]

/-- C8 (counterexample to the claim as stated): the `fails` scan stops at
the first small region, so the sizes returned by its successive
`get_region_size` calls can sum to less than the empty-cell count. -/
theorem fails_scan_sum_ne :
    (failsScanSizes demoB2 (allCells demoB2)).sum ≠ (zerosF demoB2).card := by
  decide
